import Mathlib

set_option maxRecDepth 8000

/-!
Shallow embedding of `src/roman_numerals.py` (the final revision of the
repository's roman-numeral module; `src/roman.py` is an earlier revision of
the same design and is embedded separately below only where a claim cites it).

Modelling conventions:
* Python strings are `List Char`.
* Python `int` is `Int` at the API boundary (arguments may be negative or
  exceed 3999); values proven in range are carried as `Nat` internally.
* A Python function that can raise returns `Except PyError α`; the
  constructors of `PyError` model the distinct Python exception types raised
  by this module.
* `while` loops are modelled with an explicit fuel argument chosen large
  enough; where exhaustion is impossible this is proved in a lemma.
* The stateless random source (`random.randint`) is modelled by passing the
  sampled integer as an explicit argument.
* A call that never returns (the decoder loop can spin forever, see
  `decodeLoop`) is modelled by `Option`: `none` is the divergence marker,
  and callers propagate it.

Besides the embedding itself, the file defines kernel-friendly evaluation
twins (suffix `F`, built directly on `Nat.rec`/`List.rec`) that are proved
pointwise equal to the embedded functions and are used only to discharge the
two finite enumerations (`roundtrip_enum`, `canon_enum`) efficiently.
-/

namespace RomanNumerals

/-- The Python exception types this module can raise: `InvalidRomanError`
(used for bad numeral strings, out-of-range values and non-integer floats),
`TypeError` (true division; also `float(None)` and three-argument `pow` on
floats), plain `ValueError` (`random_numeral` bound checks and
`random.randint` on an empty range), and `ZeroDivisionError` (unguarded
division by zero). -/
inductive PyError where
  | invalidRoman
  | typeError
  | valueError
  | zeroDivisionError
deriving DecidableEq

/-- The `LETTER_VALUES` dict, in its insertion (ascending) order; the code
iterates `reversed(LETTER_VALUES.items())`, i.e. `LETTER_VALUES.reverse`. -/
def LETTER_VALUES : List (List Char × Nat) :=
  [(['I'], 1), (['I', 'V'], 4), (['V'], 5), (['I', 'X'], 9), (['X'], 10),
   (['X', 'L'], 40), (['L'], 50), (['X', 'C'], 90), (['C'], 100),
   (['C', 'D'], 400), (['D'], 500), (['C', 'M'], 900), (['M'], 1000)]

/-- The `PLACE_VALUES` dict (values in iteration order). -/
def PLACE_VALUES : List Nat := [1000, 100, 10, 1]

def MIN_VALUE : Nat := 0

def MAX_VALUE : Nat := 3999

/-!
### Grammar validator

`check_roman_numeral` matches the string against the anchored regex
`^M{0,3}(CM|CD|D?C{0,3})(XC|XL|L?X{0,3})(IX|IV|V?I{0,3})$`.
A string matches a concatenation of alternation groups of plain words iff it
splits into one word from each group, so each group is listed as its finite
language (`M{0,3}` has 4 words; `D?C{0,3}` has 8 words, plus the two
subtractive alternatives `CM`, `CD`, giving 10; likewise for tens and ones)
and the matcher tries every split.  The order of words inside a group does
not affect acceptance.
-/

/-- Words of `M{0,3}`. -/
def thousandsAlt : List (List Char) :=
  [[], ['M'], ['M', 'M'], ['M', 'M', 'M']]

/-- Words of `CM|CD|D?C{0,3}`. -/
def hundredsAlt : List (List Char) :=
  [['C', 'M'], ['C', 'D'], [], ['C'], ['C', 'C'], ['C', 'C', 'C'],
   ['D'], ['D', 'C'], ['D', 'C', 'C'], ['D', 'C', 'C', 'C']]

/-- Words of `XC|XL|L?X{0,3}`. -/
def tensAlt : List (List Char) :=
  [['X', 'C'], ['X', 'L'], [], ['X'], ['X', 'X'], ['X', 'X', 'X'],
   ['L'], ['L', 'X'], ['L', 'X', 'X'], ['L', 'X', 'X', 'X']]

/-- Words of `IX|IV|V?I{0,3}`. -/
def onesAlt : List (List Char) :=
  [['I', 'X'], ['I', 'V'], [], ['I'], ['I', 'I'], ['I', 'I', 'I'],
   ['V'], ['V', 'I'], ['V', 'I', 'I'], ['V', 'I', 'I', 'I']]

/-- Match a sequence of alternation groups against the string (anchored at
the start by `re.match` and at the end by `$`): some word of the first group
is a prefix and the rest of the string matches the remaining groups.  The
base case models Python's `$`, which matches at the end of the string *or
just before a newline at the end of the string*: after all groups the
remainder must be empty or exactly one final newline. -/
def matchSeq : List (List (List Char)) → List Char → Bool
  | [], s => s.isEmpty || s == ['\n']
  | alts :: rest, s => alts.any fun p => p.isPrefixOf s && matchSeq rest (s.drop p.length)

/-- `RomanNumeral.check_roman_numeral`: `True` iff the string matches the
validator regex (the source raises `InvalidRomanError` on a non-match; that
raise is applied at each call site below).  Because of `$`'s newline rule,
the validator also accepts every grammar word followed by one trailing
newline — e.g. `"XIV\n"` and `"\n"` are accepted. -/
def check_roman_numeral (numeral : List Char) : Bool :=
  matchSeq [thousandsAlt, hundredsAlt, tensAlt, onesAlt] numeral

/-!
### Encoder (`RomanNumeral._roman_from_int`)
-/

/-- `k` repetitions of a symbol, as appended by
`for _ in range(number // value): roman += numeral`. -/
def joinRep (k : Nat) (sym : List Char) : List Char :=
  (List.replicate k sym).flatten

/-- One pass of the encoder's `for numeral, value in reversed(...)` loop:
for each table entry, append the symbol `number // value` times, reducing
`number` by `value` each time (leaving `number % value`). -/
def encodePass : List (List Char × Nat) → List Char → Nat → List Char × Nat
  | [], roman, number => (roman, number)
  | (numeral, value) :: rest, roman, number =>
      encodePass rest (roman ++ joinRep (number / value) numeral) (number % value)

/-- The encoder's `while number:` loop, with fuel.  The final table entry
processed by a pass is `('I', 1)`, so a single pass always leaves
`number % ... % 1 = 0` (`encodePass_snd_zero` below): the loop body runs at
most once and any positive fuel is exact (`encodeLoop_fuel` below); the
fuel-exhausted branch is unreachable from positive fuel. -/
def encodeLoop : Nat → List Char → Nat → List Char
  | _, roman, 0 => roman
  | 0, roman, _ => roman
  | fuel + 1, roman, number =>
      match encodePass LETTER_VALUES.reverse roman number with
      | (roman2, number2) => encodeLoop fuel roman2 number2

/-- `RomanNumeral._roman_from_int`: range-check the integer, then run the
greedy encoder.  The guards ensure `0 ≤ number`, so `number.toNat` is exact. -/
def roman_from_int (number : Int) : Except PyError (List Char) :=
  if number > (MAX_VALUE : Int) then .error .invalidRoman
  else if number < (MIN_VALUE : Int) then .error .invalidRoman
  else .ok (encodeLoop 1 [] number.toNat)

/-!
### Decoder (`RomanNumeral._get_value`)
-/

/-- One pass of the decoder's `for numeral, value in reversed(...)` loop:
each table entry is tried once; if it is a prefix of the remaining string it
is consumed (`str.removeprefix`) and its value added to the total. -/
def decodePass : List (List Char × Nat) → Nat → List Char → Nat × List Char
  | [], total, characters => (total, characters)
  | (numeral, value) :: rest, total, characters =>
      if numeral.isPrefixOf characters then
        decodePass rest (total + value) (characters.drop numeral.length)
      else
        decodePass rest total characters

/-- The decoder's `while characters:` loop.  `some total` is returned exactly
when the loop exits with the string fully consumed; `none` models the
non-termination that occurs in Python if no full pass ever empties the
string.  A pass that consumes nothing leaves the state unchanged, so the
Python loop then runs forever; every productive pass removes at least one
character, hence fuel `characters.length` is exact: `some` iff the Python
loop terminates.  The loop terminates on every validator-accepted string
without the trailing newline, but runs forever on accepted strings ending
in a newline (`decodeLoop_none_of_newline` below). -/
def decodeLoop : Nat → Nat → List Char → Option Nat
  | _, total, [] => some total
  | 0, _, _ => none
  | fuel + 1, total, characters =>
      match decodePass LETTER_VALUES.reverse total characters with
      | (total2, characters2) => decodeLoop fuel total2 characters2

/-- `RomanNumeral._get_value`: re-validate the stored string, then run the
greedy decoding loop.  `.ok none` models the call never returning (the
Python `while` loop spins forever), which is reachable exactly on accepted
strings with a trailing newline. -/
def get_value (s : List Char) : Except PyError (Option Nat) :=
  if check_roman_numeral s then .ok (decodeLoop s.length 0 s)
  else .error .invalidRoman

/-!
### The value type and its operations
-/

/-- A constructed `RomanNumeral` object: its stored string `_string` and its
`value` attribute (set at the end of `__init__` from `self._get_value()`). -/
structure RomanNumeral where
  _string : List Char
  value : Nat
deriving DecidableEq

/-- ASCII uppercasing of one character, modelling `str.upper()` on the
inputs that matter here.  (Python's `str.upper` can act differently on a few
non-ASCII characters; all grammar-valid strings are plain ASCII uppercase,
so the invariants proved below are unaffected by this restriction.) -/
def asciiUpper (c : Char) : Char :=
  if 'a' ≤ c ∧ c ≤ 'z' then Char.ofNat (c.toNat - 32) else c

/-- `str.upper()` over the whole string. -/
def py_upper (s : List Char) : List Char :=
  s.map asciiUpper

/-- `RomanNumeral.__init__` on a `str` argument: uppercase, validate (raise
`InvalidRomanError` on failure), then set `value = self._get_value()`.
`.ok none` models a constructor call that never returns (`_get_value`
spinning forever on an accepted string with a trailing newline). -/
def fromString (numeral : List Char) : Except PyError (Option RomanNumeral) :=
  if check_roman_numeral (py_upper numeral) then
    (get_value (py_upper numeral)).map (Option.map fun v => RomanNumeral.mk (py_upper numeral) v)
  else .error .invalidRoman

/-- `RomanNumeral.__init__` on an `int` argument:
`self._string = self._roman_from_int(numeral)` (raising on out-of-range),
then `value = self._get_value()` (the divergence marker is propagated,
though encoder outputs never trigger it). -/
def fromInt (number : Int) : Except PyError (Option RomanNumeral) :=
  (roman_from_int number).bind fun s => (get_value s).map (Option.map fun v => RomanNumeral.mk s v)

/-- `RomanNumeral.__init__` on a `float` argument: an integer-valued float
constructs like its integer value, any other float raises
`InvalidRomanError`.  A CPython float is a rational number and
`float.is_integer` / `int(float)` are exact on it, so the argument is
modelled as a `Rat` (`is_integer()` iff the denominator is 1). -/
def fromFloat (q : Rat) : Except PyError (Option RomanNumeral) :=
  if q.den = 1 then fromInt q.num else .error .invalidRoman

/-- `RomanNumeral.__add__`: construct from `self.value + int(other)`.  The
`other` operand (a `RomanNumeral` or an `int`) is passed here as the integer
`int(other)` produces: the numeral's `value` attribute, or the int itself. -/
def add (a : RomanNumeral) (other : Int) : Except PyError (Option RomanNumeral) :=
  fromInt (a.value + other)

/-- `RomanNumeral.__radd__`: construct from `int(other) + self.value`. -/
def radd (a : RomanNumeral) (other : Int) : Except PyError (Option RomanNumeral) :=
  fromInt (other + a.value)

/-- `RomanNumeral.__eq__` between two numerals: `self.value == float(other)`;
`float` of a `RomanNumeral` is exactly its integer value, so this compares
the two `value` attributes. -/
def eq_rn (a b : RomanNumeral) : Bool :=
  (a.value : Int) == (b.value : Int)

/-- `RomanNumeral.__truediv__` is unconditionally
`raise TypeError(...)`; the operand is ignored, whatever its type. -/
def truediv {α : Type} (a : RomanNumeral) (other : α) : Except PyError (Option RomanNumeral) :=
  .error .typeError

/-- `RomanNumeral.__rtruediv__` is likewise unconditionally
`raise TypeError(...)`. -/
def rtruediv {α : Type} (a : RomanNumeral) (other : α) : Except PyError (Option RomanNumeral) :=
  .error .typeError

/-- `RomanNumeral.__floordiv__`: `self.__class__(int(self.value // float(other)))`.
The operand (numeral, int, or integer-valued float — all exact as floats at
these magnitudes) is passed as the integer it converts to.  Python raises
`ZeroDivisionError` on `x // 0.0` before any construction; otherwise float
floor division of these exactly-representable integers is exact, i.e.
`Int.fdiv`, and the outer `int(...)` is the identity on its integral result. -/
def floordiv (a : RomanNumeral) (other : Int) : Except PyError (Option RomanNumeral) :=
  if other = 0 then .error .zeroDivisionError
  else fromInt (Int.fdiv a.value other)

/-- `RomanNumeral.__rfloordiv__`: `self.__class__(int(float(other) // self.value))`,
raising `ZeroDivisionError` when `self.value` is zero. -/
def rfloordiv (a : RomanNumeral) (other : Int) : Except PyError (Option RomanNumeral) :=
  if a.value = 0 then .error .zeroDivisionError
  else fromInt (Int.fdiv other a.value)

/-- `RomanNumeral.__mod__`: `self.__class__(int(self.value % float(other)))`.
Python float `%` takes the sign of the divisor, i.e. `Int.fmod` (the
remainder paired with floor division). -/
def mod_rn (a : RomanNumeral) (other : Int) : Except PyError (Option RomanNumeral) :=
  if other = 0 then .error .zeroDivisionError
  else fromInt (Int.fmod a.value other)

/-- `RomanNumeral.__rmod__`: `self.__class__(int(float(other) % self.value))`. -/
def rmod (a : RomanNumeral) (other : Int) : Except PyError (Option RomanNumeral) :=
  if a.value = 0 then .error .zeroDivisionError
  else fromInt (Int.fmod other a.value)

/-- One iteration of `by_place_value`'s
`floor_quotient, remainder = divmod(remainder, place_value)` loop, collecting
`RomanNumeral(floor_quotient * place_value)` for each place.  A constructor
call that never returned would make the whole method never return, so the
divergence marker is propagated. -/
def placeLoop : List Nat → Nat → Except PyError (Option (List RomanNumeral))
  | [], _ => .ok (some [])
  | place_value :: rest, remainder =>
      (fromInt ((remainder / place_value) * place_value : Nat)).bind fun o =>
        match o with
        | none => .ok none
        | some r => (placeLoop rest (remainder % place_value)).map (Option.map fun rs => r :: rs)

/-- `RomanNumeral.by_place_value`: decompose `self.value` along
`PLACE_VALUES`; the result list is `(thousands, hundreds, tens, ones)` in
order (the Python code packs it into `PlaceValueTuple`). -/
def by_place_value (a : RomanNumeral) : Except PyError (Option (List RomanNumeral)) :=
  placeLoop PLACE_VALUES a.value

/-- `RomanNumeral.random_numeral`: validate the requested bounds, then
construct from `random.randint(min_value, max_value)`.  The first two guards
are the source's explicit `raise ValueError`; `random.randint` itself raises
`ValueError` when the range is empty (`min_value > max_value`); `sample`
models the integer the generator returns, which `randint` guarantees lies in
`[min_value, max_value]` whenever that interval is nonempty. -/
def random_numeral (min_value max_value sample : Int) : Except PyError (Option RomanNumeral) :=
  if min_value < 0 then .error .valueError
  else if max_value > (MAX_VALUE : Int) then .error .valueError
  else if min_value > max_value then .error .valueError
  else fromInt sample

/-- `Invariants r`: the three data-model invariants of a constructed
`RomanNumeral`: the value lies in `[MIN_VALUE, MAX_VALUE]`; decoding the
stored string (the decoder loop at its exact fuel) yields exactly the value;
and encoding the value yields exactly the stored string. -/
def Invariants (r : RomanNumeral) : Prop :=
  MIN_VALUE ≤ r.value ∧ r.value ≤ MAX_VALUE ∧
    decodeLoop r._string.length 0 r._string = some r.value ∧
    roman_from_int (r.value : Int) = .ok r._string

/-!
### `src/roman.py` (earlier revision): `__pow__`

`def __pow__(self, power, modulo=None): return
self.__class__(pow(self.value, float(power), float(modulo)))`.
With the default `modulo=None`, `float(None)` raises `TypeError` before
`pow` is called; with a numeric `modulo`, three-argument `pow` with float
arguments raises `TypeError`.  Either way no exponentiation ever happens.
-/

/-- Model of `roman.py`'s `RomanNumeral.__pow__` (value of the receiver,
the `power` operand, and the optional `modulo` argument, `none` being
Python's default `None`). -/
def pow_py (value : Nat) (power : Int) (modulo : Option Int) : Except PyError RomanNumeral :=
  match modulo with
  | none => .error .typeError
  | some _ => .error .typeError

/-!
### Kernel-friendly evaluation twins

The functions below compute the same results as the embedding above but are
written directly with `Nat.rec` / `List.rec`, which the kernel reduces far
more efficiently than the equation compiler's `brecOn` encodings.  They are
used only inside the two finite enumerations and are proved pointwise equal
to the embedded functions (`..._eq` lemmas below).
-/

def lenF (s : List Char) : Nat :=
  List.rec 0 (fun _ _ ih => ih + 1) s

def appF (a b : List Char) : List Char :=
  List.rec b (fun c _ ih => c :: ih) a

def dropF (n : Nat) (s : List Char) : List Char :=
  Nat.rec (fun s => s) (fun _ ih s => ih (List.rec ([] : List Char) (fun _ t _ => t) s)) n s

def isPreF (p s : List Char) : Bool :=
  List.rec (fun _ => true)
    (fun c _ ih s => List.rec false (fun d ds _ => c == d && ih ds) s) p s

def repF (k : Nat) (sym : List Char) : List Char :=
  Nat.rec [] (fun _ ih => appF sym ih) k

/-- The reversed letter table, as a literal (equal to
`LETTER_VALUES.reverse`, see `rev_table`). -/
def REVERSED_LETTER_VALUES : List (List Char × Nat) :=
  [(['M'], 1000), (['C', 'M'], 900), (['D'], 500), (['C', 'D'], 400),
   (['C'], 100), (['X', 'C'], 90), (['L'], 50), (['X', 'L'], 40),
   (['X'], 10), (['I', 'X'], 9), (['V'], 5), (['I', 'V'], 4), (['I'], 1)]

def encodePassF (tbl : List (List Char × Nat)) : List Char → Nat → List Char × Nat :=
  List.rec (fun roman number => (roman, number))
    (fun e _ ih roman number => ih (appF roman (repF (number / e.2) e.1)) (number % e.2)) tbl

def encodeF (n : Nat) : List Char :=
  (encodePassF REVERSED_LETTER_VALUES [] n).1

def decodePassF (tbl : List (List Char × Nat)) : Nat → List Char → Nat × List Char :=
  List.rec (fun total characters => (total, characters))
    (fun e _ ih total characters =>
      cond (isPreF e.1 characters)
        (ih (total + e.2) (dropF (lenF e.1) characters))
        (ih total characters)) tbl

def decodeLoopF (fuel : Nat) : Nat → List Char → Option Nat :=
  Nat.rec (fun total characters => List.rec (some total) (fun _ _ _ => none) characters)
    (fun _ ih total characters =>
      List.rec (some total)
        (fun _ _ _ =>
          match decodePassF REVERSED_LETTER_VALUES total characters with
          | (total2, characters2) => ih total2 characters2) characters) fuel

def beqL (a b : List Char) : Bool :=
  List.rec (fun b => List.rec true (fun _ _ _ => false) b)
    (fun c _ ih b => List.rec false (fun d ds _ => c == d && ih ds) b) a b

/-!
### Digit words

The four regex groups, indexed by the decimal digit of their place: the
word for digit `k` is the unique word of the group whose decoded value is
`k` times the place size.  These index the single finite enumeration
(`digit_enum_0` … `digit_enum_3` below) that covers both all values in
[0, 3999] (via their digits) and all validator-accepted strings (via
`check_decomp` and the `..._word_of_mem` lemmas identifying each group
with the image of its digit function).
-/

/-- The thousands word for digit `a` (digits ≥ 4 are never used). -/
def thousandsWord : Nat → List Char
  | 1 => ['M']
  | 2 => ['M', 'M']
  | 3 => ['M', 'M', 'M']
  | _ => []

/-- The hundreds word for digit `b`. -/
def hundredsWord : Nat → List Char
  | 1 => ['C']
  | 2 => ['C', 'C']
  | 3 => ['C', 'C', 'C']
  | 4 => ['C', 'D']
  | 5 => ['D']
  | 6 => ['D', 'C']
  | 7 => ['D', 'C', 'C']
  | 8 => ['D', 'C', 'C', 'C']
  | 9 => ['C', 'M']
  | _ => []

/-- The tens word for digit `c`. -/
def tensWord : Nat → List Char
  | 1 => ['X']
  | 2 => ['X', 'X']
  | 3 => ['X', 'X', 'X']
  | 4 => ['X', 'L']
  | 5 => ['L']
  | 6 => ['L', 'X']
  | 7 => ['L', 'X', 'X']
  | 8 => ['L', 'X', 'X', 'X']
  | 9 => ['X', 'C']
  | _ => []

/-- The ones word for digit `d`. -/
def onesWord : Nat → List Char
  | 1 => ['I']
  | 2 => ['I', 'I']
  | 3 => ['I', 'I', 'I']
  | 4 => ['I', 'V']
  | 5 => ['V']
  | 6 => ['V', 'I']
  | 7 => ['V', 'I', 'I']
  | 8 => ['V', 'I', 'I', 'I']
  | 9 => ['I', 'X']
  | _ => []

/-- The property enumerated for one value `n` (given by its digits) and its
candidate string `s`: the greedy decode loop at fuel `s.length` returns
exactly `n`, and the greedy encoder maps `n` back to `s`.  (That `s` passes
the validator is not enumerated: it follows symbolically, see
`check_of_parts`.) -/
def digitAux (n : Nat) (s : List Char) : Bool :=
  (decodeLoopF (lenF s) 0 s == some n) && beqL (encodeF n) s

/-- `digitAux` at the value and string determined by the four digits. -/
def digitOK (a b c d : Nat) : Bool :=
  digitAux (1000 * a + 100 * b + 10 * c + d)
    (appF (thousandsWord a) (appF (hundredsWord b) (appF (tensWord c) (onesWord d))))

/-- Conjunction of `p` over all naturals below `n` (raw-`Nat.rec` driver for
the enumeration). -/
def allBelow (p : Nat → Bool) (n : Nat) : Bool :=
  Nat.rec true (fun k ih => p k && ih) n

/-!
### Equivalence of the evaluation twins with the embedding
-/

lemma rev_table : LETTER_VALUES.reverse = REVERSED_LETTER_VALUES := by decide

lemma lenF_eq (s : List Char) : lenF s = s.length := by
  induction s with
  | nil => rfl
  | cons c s ih => show lenF s + 1 = s.length + 1; rw [ih]

lemma appF_eq (a b : List Char) : appF a b = a ++ b := by
  induction a with
  | nil => rfl
  | cons c a ih => show c :: appF a b = (c :: a) ++ b; rw [ih]; rfl

lemma dropF_eq (n : Nat) : ∀ s : List Char, dropF n s = s.drop n := by
  induction n with
  | zero => intro s; rfl
  | succ n ih =>
      intro s
      cases s with
      | nil => show dropF n [] = _; rw [ih]; simp
      | cons c s => show dropF n s = _; rw [ih]; rfl

lemma isPreF_eq (p : List Char) : ∀ s : List Char, isPreF p s = p.isPrefixOf s := by
  induction p with
  | nil => intro s; cases s <;> rfl
  | cons c p ih =>
      intro s
      cases s with
      | nil => rfl
      | cons d s => show (c == d && isPreF p s) = _; rw [ih]; rfl

lemma repF_eq (k : Nat) (sym : List Char) : repF k sym = joinRep k sym := by
  induction k with
  | zero => rfl
  | succ k ih =>
      show appF sym (repF k sym) = _
      rw [appF_eq, ih]
      simp [joinRep, List.replicate_succ]

lemma beqL_eq (a : List Char) : ∀ b : List Char, beqL a b = true ↔ a = b := by
  induction a with
  | nil => intro b; cases b <;> simp [beqL]
  | cons c a ih =>
      intro b
      cases b with
      | nil => simp [beqL]
      | cons d b =>
          show (c == d && beqL a b) = true ↔ _
          rw [Bool.and_eq_true, beq_iff_eq, ih]
          simp

lemma encodePassF_eq (tbl : List (List Char × Nat)) :
    ∀ roman number, encodePassF tbl roman number = encodePass tbl roman number := by
  induction tbl with
  | nil => intro roman number; rfl
  | cons e rest ih =>
      intro roman number
      obtain ⟨numeral, value⟩ := e
      show encodePassF rest (appF roman (repF (number / value) numeral)) (number % value) = _
      rw [ih, appF_eq, repF_eq]
      rfl

lemma decodePassF_eq (tbl : List (List Char × Nat)) :
    ∀ total characters, decodePassF tbl total characters = decodePass tbl total characters := by
  induction tbl with
  | nil => intro total characters; rfl
  | cons e rest ih =>
      intro total characters
      obtain ⟨numeral, value⟩ := e
      show cond (isPreF numeral characters)
          (decodePassF rest (total + value) (dropF (lenF numeral) characters))
          (decodePassF rest total characters) = _
      rw [ih, ih, isPreF_eq, dropF_eq, lenF_eq, Bool.cond_eq_ite]
      rfl

lemma decodeLoopF_eq (fuel : Nat) :
    ∀ total characters, decodeLoopF fuel total characters = decodeLoop fuel total characters := by
  induction fuel with
  | zero => intro total characters; cases characters <;> rfl
  | succ fuel ih =>
      intro total characters
      cases characters with
      | nil => rfl
      | cons c cs =>
          have hF : decodeLoopF (fuel + 1) total (c :: cs) =
              (match decodePassF REVERSED_LETTER_VALUES total (c :: cs) with
               | (total2, characters2) => decodeLoopF fuel total2 characters2) := rfl
          have hE : decodeLoop (fuel + 1) total (c :: cs) =
              (match decodePass LETTER_VALUES.reverse total (c :: cs) with
               | (total2, characters2) => decodeLoop fuel total2 characters2) := rfl
          rw [hF, hE, decodePassF_eq, ← rev_table]
          obtain ⟨total2, characters2⟩ := decodePass LETTER_VALUES.reverse total (c :: cs)
          exact ih total2 characters2

lemma encodePass_snd_zero (roman : List Char) (number : Nat) :
    (encodePass LETTER_VALUES.reverse roman number).2 = 0 := by
  rw [rev_table]
  simp [REVERSED_LETTER_VALUES, encodePass, Nat.mod_one]

/-- Any two positive fuels give the same encoder result: a single pass
drives `number` to `0`, so the `while` loop body runs at most once. -/
lemma encodeLoop_fuel (fuel : Nat) (roman : List Char) (number : Nat) :
    encodeLoop (fuel + 1) roman number = encodeLoop 1 roman number := by
  cases number with
  | zero => rfl
  | succ m =>
      have hE1 : encodeLoop (fuel + 1) roman (m + 1) =
          (match encodePass LETTER_VALUES.reverse roman (m + 1) with
           | (roman2, number2) => encodeLoop fuel roman2 number2) := rfl
      have hE2 : encodeLoop 1 roman (m + 1) =
          (match encodePass LETTER_VALUES.reverse roman (m + 1) with
           | (roman2, number2) => encodeLoop 0 roman2 number2) := rfl
      rw [hE1, hE2]
      have h2 := encodePass_snd_zero roman (m + 1)
      rcases hp : encodePass LETTER_VALUES.reverse roman (m + 1) with ⟨roman2, number2⟩
      rw [hp] at h2
      have h3 : number2 = 0 := h2
      subst h3
      cases fuel <;> rfl

lemma encodeF_eq (n : Nat) : encodeF n = encodeLoop 1 [] n := by
  cases n with
  | zero => decide
  | succ m =>
      have hE2 : encodeLoop 1 [] (m + 1) =
          (match encodePass LETTER_VALUES.reverse [] (m + 1) with
           | (roman2, number2) => encodeLoop 0 roman2 number2) := rfl
      show (encodePassF REVERSED_LETTER_VALUES [] (m + 1)).1 = encodeLoop 1 [] (m + 1)
      rw [encodePassF_eq, ← rev_table, hE2]
      have h2 := encodePass_snd_zero [] (m + 1)
      rcases hp : encodePass LETTER_VALUES.reverse [] (m + 1) with ⟨roman2, number2⟩
      rw [hp] at h2
      have h3 : number2 = 0 := h2
      subst h3
      rfl

lemma allBelow_spec (p : Nat → Bool) (n : Nat) (h : allBelow p n = true) :
    ∀ k, k < n → p k = true := by
  induction n with
  | zero => intro k hk; omega
  | succ n ih =>
      have h2 : (p n && allBelow p n) = true := h
      rw [Bool.and_eq_true] at h2
      intro k hk
      rcases Nat.lt_succ_iff_lt_or_eq.mp hk with hk2 | hk2
      · exact ih h2.2 k hk2
      · subst hk2; exact h2.1

/-!
### The finite enumeration

Everything the claims need about the infinite families "all values in
[0, 3999]" and "all validator-accepted strings" reduces to this
kernel-checked fact: `digitOK` holds at each of the 4 × 10 × 10 × 10 digit
combinations.  It is split into four declarations (one per thousands digit)
to bound the resources any single kernel check needs.
-/

set_option maxHeartbeats 1000000 in
lemma digit_enum_0 :
    allBelow (fun b => allBelow (fun c => allBelow (fun d => digitOK 0 b c d) 10) 10) 10
      = true := by decide!

set_option maxHeartbeats 1000000 in
lemma digit_enum_1 :
    allBelow (fun b => allBelow (fun c => allBelow (fun d => digitOK 1 b c d) 10) 10) 10
      = true := by decide!

set_option maxHeartbeats 1000000 in
lemma digit_enum_2 :
    allBelow (fun b => allBelow (fun c => allBelow (fun d => digitOK 2 b c d) 10) 10) 10
      = true := by decide!

set_option maxHeartbeats 1000000 in
lemma digit_enum_3 :
    allBelow (fun b => allBelow (fun c => allBelow (fun d => digitOK 3 b c d) 10) 10) 10
      = true := by decide!

/-!
### Bridges from the enumerations to the embedding
-/

lemma matchSeq_cons_elim {alts : List (List Char)} {rest : List (List (List Char))}
    {s : List Char} (h : matchSeq (alts :: rest) s = true) :
    ∃ p ∈ alts, p.isPrefixOf s = true ∧ matchSeq rest (s.drop p.length) = true := by
  rw [matchSeq, List.any_eq_true] at h
  obtain ⟨p, hp, hps⟩ := h
  rw [Bool.and_eq_true] at hps
  exact ⟨p, hp, hps.1, hps.2⟩

lemma split_of_isPrefixOf {p s : List Char} (h : p.isPrefixOf s = true) :
    s = p ++ s.drop p.length :=
  (List.prefix_iff_eq_append.mp ( List.isPrefixOf_iff_prefix.mp h)).symm

/-- Every validator-accepted string splits into one word from each of the
four regex groups, possibly followed by one trailing newline (the remainder
Python's `$` tolerates). -/
lemma check_decomp {s : List Char} (hs : check_roman_numeral s = true) :
    ∃ t ∈ thousandsAlt, ∃ h ∈ hundredsAlt, ∃ te ∈ tensAlt, ∃ o ∈ onesAlt,
      s = t ++ (h ++ (te ++ o)) ∨ s = t ++ (h ++ (te ++ o)) ++ ['\n'] := by
  obtain ⟨t, ht, htp, h1⟩ := matchSeq_cons_elim hs
  obtain ⟨h, hh, hhp, h2⟩ := matchSeq_cons_elim h1
  obtain ⟨te, hte, htep, h3⟩ := matchSeq_cons_elim h2
  obtain ⟨o, ho, hop, h4⟩ := matchSeq_cons_elim h3
  have hemp : matchSeq [] ((((s.drop t.length).drop h.length).drop te.length).drop o.length)
      = true := h4
  rw [matchSeq, Bool.or_eq_true, List.isEmpty_iff, beq_iff_eq] at hemp
  refine ⟨t, ht, h, hh, te, hte, o, ho, ?_⟩
  have e1 := split_of_isPrefixOf htp
  have e2 := split_of_isPrefixOf hhp
  have e3 := split_of_isPrefixOf htep
  have e4 := split_of_isPrefixOf hop
  rcases hemp with hemp | hemp
  · left
    rw [e4, hemp, List.append_nil] at e3
    rw [e3] at e2
    rw [e2] at e1
    exact e1
  · right
    rw [e4, hemp] at e3
    rw [e3] at e2
    rw [e2] at e1
    rw [e1]
    simp [List.append_assoc]

/-- The enumeration, repackaged: `digitOK` holds at every digit
combination. -/
lemma digitOK_all (a b c d : Nat) (ha : a < 4) (hb : b < 10) (hc : c < 10)
    (hd : d < 10) : digitOK a b c d = true := by
  interval_cases a
  · exact allBelow_spec _ _ (allBelow_spec _ _ (allBelow_spec _ _ digit_enum_0 b hb) c hc) d hd
  · exact allBelow_spec _ _ (allBelow_spec _ _ (allBelow_spec _ _ digit_enum_1 b hb) c hc) d hd
  · exact allBelow_spec _ _ (allBelow_spec _ _ (allBelow_spec _ _ digit_enum_2 b hb) c hc) d hd
  · exact allBelow_spec _ _ (allBelow_spec _ _ (allBelow_spec _ _ digit_enum_3 b hb) c hc) d hd

/-- Every digit's thousands word is a word of `M{0,3}`. -/
lemma thousands_word_mem (a : Nat) (ha : a < 4) : thousandsWord a ∈ thousandsAlt := by
  interval_cases a <;> decide

/-- Every digit's hundreds word is a word of `CM|CD|D?C{0,3}`. -/
lemma hundreds_word_mem (b : Nat) (hb : b < 10) : hundredsWord b ∈ hundredsAlt := by
  interval_cases b <;> decide

/-- Every digit's tens word is a word of `XC|XL|L?X{0,3}`. -/
lemma tens_word_mem (c : Nat) (hc : c < 10) : tensWord c ∈ tensAlt := by
  interval_cases c <;> decide

/-- Every digit's ones word is a word of `IX|IV|V?I{0,3}`. -/
lemma ones_word_mem (d : Nat) (hd : d < 10) : onesWord d ∈ onesAlt := by
  interval_cases d <;> decide

/-- Converse of `check_decomp`: the concatenation of one word from each
group is accepted by the validator (proved symbolically — a word is a
prefix of its own append, and dropping it leaves the rest). -/
lemma check_of_parts {t h te o : List Char} (ht : t ∈ thousandsAlt)
    (hh : h ∈ hundredsAlt) (hte : te ∈ tensAlt) (ho : o ∈ onesAlt) :
    check_roman_numeral (t ++ (h ++ (te ++ o))) = true := by
  unfold check_roman_numeral
  rw [matchSeq, List.any_eq_true]
  refine ⟨t, ht, ?_⟩
  rw [Bool.and_eq_true]
  refine ⟨List.isPrefixOf_iff_prefix.mpr (List.prefix_append t _), ?_⟩
  rw [List.drop_left, matchSeq, List.any_eq_true]
  refine ⟨h, hh, ?_⟩
  rw [Bool.and_eq_true]
  refine ⟨List.isPrefixOf_iff_prefix.mpr (List.prefix_append h _), ?_⟩
  rw [List.drop_left, matchSeq, List.any_eq_true]
  refine ⟨te, hte, ?_⟩
  rw [Bool.and_eq_true]
  refine ⟨List.isPrefixOf_iff_prefix.mpr (List.prefix_append te _), ?_⟩
  rw [List.drop_left, matchSeq, List.any_eq_true]
  refine ⟨o, ho, ?_⟩
  rw [Bool.and_eq_true]
  refine ⟨List.isPrefixOf_iff_prefix.mpr List.prefix_rfl, ?_⟩
  rw [List.drop_length]
  rfl

/-- What the enumeration says, translated to the embedded functions: for any
digits, the digit-word concatenation passes the validator, decodes to the
digits' value, and is the encoding of that value. -/
lemma digit_spec (a b c d : Nat) (ha : a < 4) (hb : b < 10) (hc : c < 10)
    (hd : d < 10) :
    check_roman_numeral
        (thousandsWord a ++ (hundredsWord b ++ (tensWord c ++ onesWord d))) = true ∧
      decodeLoop
        (thousandsWord a ++ (hundredsWord b ++ (tensWord c ++ onesWord d))).length 0
        (thousandsWord a ++ (hundredsWord b ++ (tensWord c ++ onesWord d)))
        = some (1000 * a + 100 * b + 10 * c + d) ∧
      encodeLoop 1 [] (1000 * a + 100 * b + 10 * c + d)
        = thousandsWord a ++ (hundredsWord b ++ (tensWord c ++ onesWord d)) := by
  have hq := digitOK_all a b c d ha hb hc hd
  unfold digitOK digitAux at hq
  rw [appF_eq, appF_eq, appF_eq, lenF_eq, decodeLoopF_eq, encodeF_eq] at hq
  rw [Bool.and_eq_true] at hq
  obtain ⟨h2, h3⟩ := hq
  rw [beq_iff_eq] at h2
  rw [beqL_eq] at h3
  exact ⟨check_of_parts (thousands_word_mem a ha) (hundreds_word_mem b hb)
    (tens_word_mem c hc) (ones_word_mem d hd), h2, h3⟩

/-- No symbol of the letter table contains a newline. -/
lemma table_no_newline : ∀ p ∈ LETTER_VALUES.reverse, '\n' ∉ p.1 := by decide

/-- A decoder pass over newline-free symbols can never consume a newline:
if the remaining string contains one, it still does after the pass. -/
lemma decodePass_newline (tbl : List (List Char × Nat))
    (htbl : ∀ p ∈ tbl, '\n' ∉ p.1) :
    ∀ total s, '\n' ∈ s → '\n' ∈ (decodePass tbl total s).2 := by
  induction tbl with
  | nil => intro total s hs; exact hs
  | cons e rest ih =>
      intro total s hs
      obtain ⟨numeral, value⟩ := e
      have hne : '\n' ∉ numeral := htbl (numeral, value) (List.mem_cons_self _ _)
      have hrest : ∀ p ∈ rest, '\n' ∉ p.1 := fun p hp => htbl p (List.mem_cons_of_mem _ hp)
      rw [decodePass]
      by_cases hpre : numeral.isPrefixOf s
      · rw [if_pos hpre]
        refine ih hrest _ _ ?_
        have hsplit := split_of_isPrefixOf hpre
        rw [hsplit] at hs
        rcases List.mem_append.mp hs with h1 | h1
        · exact absurd h1 hne
        · exact h1
      · rw [if_neg hpre]
        exact ih hrest total s hs

/-- On any string containing a newline the decoder loop never terminates:
no pass can consume the newline, so the string never empties, and in Python
the `while` loop spins forever (here: `none` at every fuel). -/
lemma decodeLoop_none_of_newline : ∀ (fuel total : Nat) (s : List Char),
    '\n' ∈ s → decodeLoop fuel total s = none := by
  intro fuel
  induction fuel with
  | zero =>
      intro total s hs
      cases s with
      | nil => cases hs
      | cons c cs => rfl
  | succ fuel ih =>
      intro total s hs
      cases s with
      | nil => cases hs
      | cons c cs =>
          have hE : decodeLoop (fuel + 1) total (c :: cs) =
              (match decodePass LETTER_VALUES.reverse total (c :: cs) with
               | (total2, characters2) => decodeLoop fuel total2 characters2) := rfl
          rw [hE]
          have h2 := decodePass_newline LETTER_VALUES.reverse table_no_newline total
            (c :: cs) hs
          rcases hp : decodePass LETTER_VALUES.reverse total (c :: cs) with ⟨total2, characters2⟩
          rw [hp] at h2
          exact ih total2 characters2 h2

/-- Each word of `M{0,3}` is a digit word. -/
lemma thousands_word_of_mem {t : List Char} (ht : t ∈ thousandsAlt) :
    ∃ a, a < 4 ∧ t = thousandsWord a := by
  fin_cases ht
  · exact ⟨0, by omega, rfl⟩
  · exact ⟨1, by omega, rfl⟩
  · exact ⟨2, by omega, rfl⟩
  · exact ⟨3, by omega, rfl⟩

/-- Each word of `CM|CD|D?C{0,3}` is a digit word. -/
lemma hundreds_word_of_mem {h : List Char} (hh : h ∈ hundredsAlt) :
    ∃ b, b < 10 ∧ h = hundredsWord b := by
  fin_cases hh
  · exact ⟨9, by omega, rfl⟩
  · exact ⟨4, by omega, rfl⟩
  · exact ⟨0, by omega, rfl⟩
  · exact ⟨1, by omega, rfl⟩
  · exact ⟨2, by omega, rfl⟩
  · exact ⟨3, by omega, rfl⟩
  · exact ⟨5, by omega, rfl⟩
  · exact ⟨6, by omega, rfl⟩
  · exact ⟨7, by omega, rfl⟩
  · exact ⟨8, by omega, rfl⟩

/-- Each word of `XC|XL|L?X{0,3}` is a digit word. -/
lemma tens_word_of_mem {te : List Char} (hte : te ∈ tensAlt) :
    ∃ c, c < 10 ∧ te = tensWord c := by
  fin_cases hte
  · exact ⟨9, by omega, rfl⟩
  · exact ⟨4, by omega, rfl⟩
  · exact ⟨0, by omega, rfl⟩
  · exact ⟨1, by omega, rfl⟩
  · exact ⟨2, by omega, rfl⟩
  · exact ⟨3, by omega, rfl⟩
  · exact ⟨5, by omega, rfl⟩
  · exact ⟨6, by omega, rfl⟩
  · exact ⟨7, by omega, rfl⟩
  · exact ⟨8, by omega, rfl⟩

/-- Each word of `IX|IV|V?I{0,3}` is a digit word. -/
lemma ones_word_of_mem {o : List Char} (ho : o ∈ onesAlt) :
    ∃ d, d < 10 ∧ o = onesWord d := by
  fin_cases ho
  · exact ⟨9, by omega, rfl⟩
  · exact ⟨4, by omega, rfl⟩
  · exact ⟨0, by omega, rfl⟩
  · exact ⟨1, by omega, rfl⟩
  · exact ⟨2, by omega, rfl⟩
  · exact ⟨3, by omega, rfl⟩
  · exact ⟨5, by omega, rfl⟩
  · exact ⟨6, by omega, rfl⟩
  · exact ⟨7, by omega, rfl⟩
  · exact ⟨8, by omega, rfl⟩

/-- `str.upper` fixes every digit word (all are uppercase ASCII). -/
lemma upper_words (k : Nat) (hk : k < 10) :
    py_upper (thousandsWord k) = thousandsWord k ∧
      py_upper (hundredsWord k) = hundredsWord k ∧
      py_upper (tensWord k) = tensWord k ∧
      py_upper (onesWord k) = onesWord k := by
  interval_cases k <;> exact ⟨rfl, rfl, rfl, rfl⟩

/-- What the enumeration says about each value in [0, 3999]: its encoding
passes the validator and decodes back to it. -/
lemma roundtrip_spec (n : Nat) (hn : n ≤ 3999) :
    check_roman_numeral (encodeLoop 1 [] n) = true ∧
      decodeLoop (encodeLoop 1 [] n).length 0 (encodeLoop 1 [] n) = some n := by
  obtain ⟨hchk, hdec, henc⟩ :=
    digit_spec (n / 1000) (n % 1000 / 100) (n % 1000 % 100 / 10) (n % 1000 % 100 % 10)
      (by omega) (by omega) (by omega) (by omega)
  have hv : 1000 * (n / 1000) + 100 * (n % 1000 / 100) + 10 * (n % 1000 % 100 / 10) +
      n % 1000 % 100 % 10 = n := by omega
  rw [hv] at hdec henc
  rw [henc]
  exact ⟨hchk, hdec⟩

/-!
### Constructor characterizations
-/

lemma get_value_of_valid {s : List Char} {v : Nat} (hc : check_roman_numeral s = true)
    (hd : decodeLoop s.length 0 s = some v) : get_value s = .ok (some v) := by
  unfold get_value
  rw [if_pos hc, hd]

lemma roman_from_int_eq (n : Nat) (hn : n ≤ 3999) :
    roman_from_int (n : Int) = .ok (encodeLoop 1 [] n) := by
  unfold roman_from_int
  rw [if_neg (by simp only [MAX_VALUE]; omega), if_neg (by simp only [MIN_VALUE]; omega)]
  have : ((n : Int)).toNat = n := by omega
  rw [this]

lemma fromInt_eq (n : Nat) (hn : n ≤ 3999) :
    fromInt (n : Int) = .ok (some ⟨encodeLoop 1 [] n, n⟩) := by
  unfold fromInt
  rw [roman_from_int_eq n hn]
  obtain ⟨hc, hd⟩ := roundtrip_spec n hn
  rw [show ∀ x : List Char, ∀ f : List Char → Except PyError (Option RomanNumeral),
        Except.bind (Except.ok x) f = f x from fun _ _ => rfl]
  rw [get_value_of_valid hc hd]
  rfl

lemma fromInt_err (number : Int) (h : 3999 < number ∨ number < 0) :
    fromInt number = .error .invalidRoman := by
  unfold fromInt roman_from_int
  rcases h with h | h
  · rw [if_pos (by simp only [MAX_VALUE]; omega)]
    rfl
  · rw [if_neg (by simp only [MAX_VALUE]; omega), if_pos (by simp only [MIN_VALUE]; omega)]
    rfl

lemma fromInt_ok_inv {number : Int} {r : RomanNumeral} (h : fromInt number = .ok (some r)) :
    0 ≤ number ∧ number ≤ 3999 ∧
      r = ⟨encodeLoop 1 [] number.toNat, number.toNat⟩ := by
  by_cases h1 : 3999 < number ∨ number < 0
  · rw [fromInt_err number h1] at h
    cases h
  · push_neg at h1
    have hn : number = ((number.toNat : Nat) : Int) := by omega
    have hle : number.toNat ≤ 3999 := by omega
    rw [hn, fromInt_eq number.toNat hle] at h
    injection h with h
    injection h with h
    exact ⟨by omega, by omega, h.symm⟩

/-!
### Additional characterizations used by the claims
-/

lemma except_bind_ok {α β : Type} (x : α) (f : α → Except PyError β) :
    Except.bind (Except.ok x) f = f x := rfl

lemma except_map_ok {α β : Type} (x : α) (f : α → β) :
    Except.map f (Except.ok x : Except PyError α) = Except.ok (f x) := rfl

/-- Dichotomy for validator-accepted strings: either the string is a
canonical encoder output (and decodes to its value), or it carries the
trailing newline and the decoder loop never terminates on it. -/
lemma canonical_cases {s : List Char} (hs : check_roman_numeral s = true) :
    (∃ v, decodeLoop s.length 0 s = some v ∧ v ≤ 3999 ∧
       encodeLoop 1 [] v = s ∧ py_upper s = s) ∨
    ('\n' ∈ s ∧ decodeLoop s.length 0 s = none) := by
  obtain ⟨t, ht, h, hh, te, hte, o, ho, hsplit⟩ := check_decomp hs
  rcases hsplit with rfl | rfl
  · left
    obtain ⟨a, ha, rfl⟩ := thousands_word_of_mem ht
    obtain ⟨b, hb, rfl⟩ := hundreds_word_of_mem hh
    obtain ⟨c, hc, rfl⟩ := tens_word_of_mem hte
    obtain ⟨d, hd, rfl⟩ := ones_word_of_mem ho
    obtain ⟨hchk, hdec, henc⟩ := digit_spec a b c d ha hb hc hd
    refine ⟨1000 * a + 100 * b + 10 * c + d, hdec, by omega, henc, ?_⟩
    show List.map asciiUpper _ = _
    rw [List.map_append, List.map_append, List.map_append]
    have hta := (upper_words a (by omega)).1
    have hhb := (upper_words b hb).2.1
    have htec := (upper_words c hc).2.2.1
    have hod := (upper_words d hd).2.2.2
    rw [py_upper] at hta hhb htec hod
    rw [hta, hhb, htec, hod]
  · have hn : '\n' ∈ t ++ (h ++ (te ++ o)) ++ ['\n'] := by simp
    exact Or.inr ⟨hn, decodeLoop_none_of_newline _ _ _ hn⟩

/-- On accepted strings without the trailing newline, decoding terminates at
a canonical value. -/
lemma decode_of_check {s : List Char} (hs : check_roman_numeral s = true)
    (hnl : '\n' ∉ s) :
    ∃ v, decodeLoop s.length 0 s = some v ∧ v ≤ 3999 ∧
      encodeLoop 1 [] v = s ∧ py_upper s = s := by
  rcases canonical_cases hs with h | h
  · exact h
  · exact absurd h.1 hnl

lemma fromString_ok_inv {numeral : List Char} {r : RomanNumeral}
    (hr : fromString numeral = .ok (some r)) :
    r.value ≤ 3999 ∧ r._string = py_upper numeral ∧
      check_roman_numeral r._string = true ∧
      decodeLoop r._string.length 0 r._string = some r.value ∧
      encodeLoop 1 [] r.value = r._string := by
  unfold fromString at hr
  by_cases hc : check_roman_numeral (py_upper numeral) = true
  · rw [if_pos hc] at hr
    unfold get_value at hr
    rw [if_pos hc, except_map_ok] at hr
    injection hr with hr
    rcases canonical_cases hc with ⟨v, hd, hle, henc, _⟩ | ⟨_, hd⟩
    · rw [hd] at hr
      injection hr with hr
      subst hr
      exact ⟨hle, rfl, hc, hd, henc⟩
    · rw [hd] at hr
      cases hr
  · rw [if_neg hc] at hr
    cases hr

lemma placeLoop_cons_some (place_value : Nat) (rest : List Nat) (remainder : Nat)
    (r : RomanNumeral)
    (h : fromInt ((remainder / place_value) * place_value : Nat) = .ok (some r)) :
    placeLoop (place_value :: rest) remainder =
      (placeLoop rest (remainder % place_value)).map (Option.map fun rs => r :: rs) := by
  rw [placeLoop, h]
  rfl

lemma invariants_of_fromInt {number : Int} {r : RomanNumeral}
    (h : fromInt number = .ok (some r)) : Invariants r := by
  obtain ⟨h0, h1, rfl⟩ := fromInt_ok_inv h
  have hle : number.toNat ≤ 3999 := by omega
  obtain ⟨hc, hd⟩ := roundtrip_spec number.toNat hle
  exact ⟨Nat.zero_le _, hle, hd, roman_from_int_eq _ hle⟩

/-!
### The claims
-/

/-- C1: for every integer `v` in [0, 3999], decoding the string produced by
encoding `v` yields `v` again: the encoder succeeds, its output decodes to
exactly `v`, and constructing a `RomanNumeral` from `v` gives an object
whose `value` attribute is exactly `v`. -/
theorem claim1_encode_decode_roundtrip (v : Nat) (hv : v ≤ 3999) :
    ∃ s, roman_from_int (v : Int) = .ok s ∧ get_value s = .ok (some v) ∧
      ∃ r, fromInt (v : Int) = .ok (some r) ∧ r.value = v := by
  obtain ⟨hc, hd⟩ := roundtrip_spec v hv
  exact ⟨_, roman_from_int_eq v hv, get_value_of_valid hc hd, _, fromInt_eq v hv, rfl⟩

/-- Witness for C1 at `v = 1994`. -/
theorem claim1_witness :
    ∃ s, roman_from_int (1994 : Int) = .ok s ∧ get_value s = .ok (some 1994) ∧
      ∃ r, fromInt (1994 : Int) = .ok (some r) ∧ r.value = 1994 :=
  claim1_encode_decode_roundtrip 1994 (by omega)

/-- C2, refuted as stated: the validator's `$` also accepts a trailing
newline, so the accepted language is strictly larger than the canonical
encoder outputs.  The newline string is accepted, decoding it never returns
an integer (the loop diverges), and in particular no decoded value
re-encodes to it. -/
theorem claim2_counterexample :
    check_roman_numeral ['\n'] = true ∧
      get_value ['\n'] = .ok none ∧
      decodeLoop (['\n'] : List Char).length 0 ['\n'] = none ∧
      ¬ ∃ v : Nat, get_value ['\n'] = .ok (some v) ∧
          roman_from_int (v : Int) = .ok (py_upper ['\n']) := by
  refine ⟨rfl, rfl, rfl, ?_⟩
  rintro ⟨v, hv, _⟩
  rw [show get_value ['\n'] = .ok none from rfl] at hv
  injection hv with hv
  cases hv

/-- C2 as amended: on every validator-accepted string *without the trailing
newline* (the only accepted strings on which decoding returns), encoding the
decoded value yields the uppercase form of the string; and every encoder
output for a value in [0, 3999] is accepted by the validator. -/
theorem claim2_canonical_language :
    (∀ s, check_roman_numeral s = true → '\n' ∉ s →
       ∃ v, get_value s = .ok (some v) ∧ roman_from_int (v : Int) = .ok (py_upper s)) ∧
    (∀ v : Nat, v ≤ 3999 →
       ∃ s, roman_from_int (v : Int) = .ok s ∧ check_roman_numeral s = true) := by
  constructor
  · intro s hs hnl
    obtain ⟨v, hd, hle, henc, hupp⟩ := decode_of_check hs hnl
    refine ⟨v, get_value_of_valid hs hd, ?_⟩
    rw [roman_from_int_eq v hle, henc, hupp]
  · intro v hv
    obtain ⟨hc, _⟩ := roundtrip_spec v hv
    exact ⟨_, roman_from_int_eq v hv, hc⟩

/-- Witness for C2 at the accepted string `"XIV"` and the value 14. -/
theorem claim2_witness :
    (∃ v, get_value ['X', 'I', 'V'] = .ok (some v) ∧
       roman_from_int (v : Int) = .ok (py_upper ['X', 'I', 'V'])) ∧
    (∃ s, roman_from_int (14 : Int) = .ok s ∧ check_roman_numeral s = true) :=
  ⟨claim2_canonical_language.1 ['X', 'I', 'V'] (by decide) (by decide),
   claim2_canonical_language.2 14 (by omega)⟩

/-- C3: every successfully constructed `RomanNumeral` — from a string, an
integer, or a float (operation results all construct through the integer
path) — satisfies the three invariants: value in [`MIN_VALUE`, `MAX_VALUE`],
the stored string decodes to exactly the value, and the value encodes to
exactly the stored string. -/
theorem claim3_invariants :
    (∀ numeral r, fromString numeral = .ok (some r) → Invariants r) ∧
    (∀ number r, fromInt number = .ok (some r) → Invariants r) ∧
    (∀ q r, fromFloat q = .ok (some r) → Invariants r) := by
  refine ⟨?_, fun _ _ h => invariants_of_fromInt h, ?_⟩
  · intro numeral r hr
    obtain ⟨hle, _, _, hd, henc⟩ := fromString_ok_inv hr
    refine ⟨Nat.zero_le _, hle, hd, ?_⟩
    rw [roman_from_int_eq _ hle, henc]
  · intro q r hr
    unfold fromFloat at hr
    by_cases hq : q.den = 1
    · rw [if_pos hq] at hr
      exact invariants_of_fromInt hr
    · rw [if_neg hq] at hr
      cases hr

/-- Witness for C3 on the lowercase string `"xiv"`. -/
theorem claim3_witness : Invariants ⟨['X', 'I', 'V'], 14⟩ :=
  claim3_invariants.1 ['x', 'i', 'v'] ⟨['X', 'I', 'V'], 14⟩ rfl

/-- C4 (the code, as written, never performs the exponentiation the claim
describes): `roman.py`'s `__pow__` raises `TypeError` on every input —
`float(None)` for the default `modulo=None`, and three-argument `pow` on
floats otherwise — so no input exists on which it computes a power or
raises the out-of-range error. -/
theorem claim4_pow_always_typeerror (value : Nat) (power : Int) (modulo : Option Int) :
    pow_py value power modulo = .error .typeError := by
  cases modulo <;> rfl

/-- C5: `random_numeral` fails with the `InvalidRange`-class error
(`ValueError`) whenever `min < 0`, `max > 3999` or `min > max`; and whenever
it succeeds on a sample the generator guarantees to lie in `[min, max]`, the
returned numeral's value lies in `[min, max]`. -/
theorem claim5_random_numeral (min_value max_value sample : Int) :
    ((min_value < 0 ∨ max_value > 3999 ∨ min_value > max_value) →
       random_numeral min_value max_value sample = .error .valueError) ∧
    (min_value ≤ sample → sample ≤ max_value →
       ∀ r, random_numeral min_value max_value sample = .ok (some r) →
         min_value ≤ (r.value : Int) ∧ (r.value : Int) ≤ max_value) := by
  constructor
  · intro h
    unfold random_numeral
    by_cases h1 : min_value < 0
    · rw [if_pos h1]
    · rw [if_neg h1]
      by_cases h2 : max_value > (MAX_VALUE : Int)
      · rw [if_pos h2]
      · rw [if_neg h2]
        have h3 : min_value > max_value := by
          simp only [MAX_VALUE] at h2
          omega
        rw [if_pos h3]
  · intro hs1 hs2 r hr
    unfold random_numeral at hr
    by_cases h1 : min_value < 0
    · rw [if_pos h1] at hr; cases hr
    · rw [if_neg h1] at hr
      by_cases h2 : max_value > (MAX_VALUE : Int)
      · rw [if_pos h2] at hr; cases hr
      · rw [if_neg h2] at hr
        by_cases h3 : min_value > max_value
        · rw [if_pos h3] at hr; cases hr
        · rw [if_neg h3] at hr
          obtain ⟨hn0, hn1, rfl⟩ := fromInt_ok_inv hr
          simp only [MAX_VALUE] at h2
          have hval : (RomanNumeral.mk (encodeLoop 1 [] sample.toNat) sample.toNat).value
              = sample.toNat := rfl
          rw [hval]
          constructor
          · omega
          · omega

/-- Witness for C5: an invalid range fails, and a valid call with sample 7
in [0, 10] yields a value in [0, 10]. -/
theorem claim5_witness :
    random_numeral (-1) 5 0 = .error .valueError ∧
    ((0 : Int) ≤ (((⟨['V', 'I', 'I'], 7⟩ : RomanNumeral)).value : Int) ∧
      (((⟨['V', 'I', 'I'], 7⟩ : RomanNumeral)).value : Int) ≤ (10 : Int)) :=
  ⟨(claim5_random_numeral (-1) 5 0).1 (by omega),
   (claim5_random_numeral 0 10 7).2 (by omega) (by omega) ⟨['V', 'I', 'I'], 7⟩ rfl⟩

/-- C6: true division involving a `RomanNumeral` always raises the
`UnsupportedOperation`-class error (`TypeError`) and never produces a value,
for every operand of every type and in both operand orders. -/
theorem claim6_truediv_unsupported (α : Type) (a : RomanNumeral) (x : α) :
    truediv a x = .error .typeError ∧ rtruediv a x = .error .typeError :=
  ⟨rfl, rfl⟩

/-- C7: for all `a, b ≥ 0` with `a + b ≤ 3999`, adding `RomanNumeral(a)` and
`RomanNumeral(b)` yields exactly the same result as constructing
`RomanNumeral(a + b)` — in particular a numeral of value `a + b`, equal
(under `__eq__`) to `RomanNumeral(a + b)` — and when `a + b > 3999` the
addition fails with the `OutOfRange`-class error (`InvalidRomanError`). -/
theorem claim7_additivity (a b : Nat) (ra rb : RomanNumeral)
    (ha : fromInt (a : Int) = .ok (some ra)) (hb : fromInt (b : Int) = .ok (some rb)) :
    (a + b ≤ 3999 →
       add ra (rb.value : Int) = fromInt ((a + b : Nat) : Int) ∧
       ∃ rc rab, add ra (rb.value : Int) = .ok (some rc) ∧ rc.value = a + b ∧
         fromInt ((a + b : Nat) : Int) = .ok (some rab) ∧ eq_rn rc rab = true) ∧
    (3999 < a + b → add ra (rb.value : Int) = .error .invalidRoman) := by
  obtain ⟨_, _, rfl⟩ := fromInt_ok_inv ha
  obtain ⟨_, _, rfl⟩ := fromInt_ok_inv hb
  have hadd : add ⟨encodeLoop 1 [] (Int.toNat a), Int.toNat a⟩
      ((⟨encodeLoop 1 [] (Int.toNat b), Int.toNat b⟩ : RomanNumeral).value : Int) =
      fromInt ((a + b : Nat) : Int) := by
    unfold add
    congr 1
  constructor
  · intro hle
    refine ⟨hadd, ⟨encodeLoop 1 [] (a + b), a + b⟩, ⟨encodeLoop 1 [] (a + b), a + b⟩,
      ?_, rfl, fromInt_eq (a + b) hle, ?_⟩
    · rw [hadd, fromInt_eq (a + b) hle]
    · unfold eq_rn
      exact beq_self_eq_true _
  · intro hgt
    rw [hadd]
    exact fromInt_err _ (Or.inl (by push_cast; omega))

/-- Witness for C7 at `a = 2`, `b = 3`. -/
theorem claim7_witness :
    (2 + 3 ≤ 3999 →
       add ⟨['I', 'I'], 2⟩ ((3 : Nat) : Int) = fromInt ((2 + 3 : Nat) : Int) ∧
       ∃ rc rab, add ⟨['I', 'I'], 2⟩ ((3 : Nat) : Int) = .ok (some rc) ∧ rc.value = 2 + 3 ∧
         fromInt ((2 + 3 : Nat) : Int) = .ok (some rab) ∧ eq_rn rc rab = true) ∧
    (3999 < 2 + 3 →
       add ⟨['I', 'I'], 2⟩ ((3 : Nat) : Int) = .error .invalidRoman) := by
  have h := claim7_additivity 2 3 ⟨['I', 'I'], 2⟩ ⟨['I', 'I', 'I'], 3⟩ rfl rfl
  exact h

/-- C8, refuted as stated: the validator accepts `"X\n"` (Python's `$`
matches before the trailing newline), and on it the decoder's while loop
never terminates — the first pass consumes `'X'`, no table symbol is a
prefix of `"\n"`, so every later pass leaves the string unchanged. -/
theorem claim8_counterexample :
    check_roman_numeral ['X', '\n'] = true ∧
      decodeLoop (['X', '\n'] : List Char).length 0 ['X', '\n'] = none ∧
      get_value ['X', '\n'] = .ok none :=
  ⟨rfl, rfl, rfl⟩

/-- C8 as amended: on every validator-accepted string *without the trailing
newline*, the decoder's while loop, run at its exact fuel, terminates having
fully consumed the string (which is what `some` means for `decodeLoop`),
returns a unique integer (and `_get_value` returns exactly it); the empty
string decodes to 0. -/
theorem claim8_decoder_terminates :
    (∀ s, check_roman_numeral s = true → '\n' ∉ s →
       ∃ v, decodeLoop s.length 0 s = some v ∧
         (∀ w, decodeLoop s.length 0 s = some w → w = v) ∧
         get_value s = .ok (some v)) ∧
    decodeLoop 0 0 [] = some 0 ∧ get_value [] = .ok (some 0) := by
  refine ⟨?_, rfl, rfl⟩
  intro s hs hnl
  obtain ⟨v, hd, _, _, _⟩ := decode_of_check hs hnl
  refine ⟨v, hd, ?_, get_value_of_valid hs hd⟩
  intro w hw
  rw [hd] at hw
  injection hw with hw
  exact hw.symm

/-- Witness for C8 at the accepted string `"MMXIV"`. -/
theorem claim8_witness :
    ∃ v, decodeLoop (['M', 'M', 'X', 'I', 'V'] : List Char).length 0 ['M', 'M', 'X', 'I', 'V'] = some v ∧
      (∀ w, decodeLoop (['M', 'M', 'X', 'I', 'V'] : List Char).length 0 ['M', 'M', 'X', 'I', 'V'] = some w → w = v) ∧
      get_value ['M', 'M', 'X', 'I', 'V'] = .ok (some v) :=
  claim8_decoder_terminates.1 ['M', 'M', 'X', 'I', 'V'] (by decide) (by decide)

/-- C9: for every `v` in [0, 3999], `by_place_value` on `RomanNumeral(v)`
returns four components that sum to `v`, each an exact multiple of its place
size (1000, 100, 10, 1). -/
theorem claim9_place_value (v : Nat) (hv : v ≤ 3999) (r : RomanNumeral)
    (hr : fromInt (v : Int) = .ok (some r)) :
    ∃ t h te o, by_place_value r = .ok (some [t, h, te, o]) ∧
      t.value + h.value + te.value + o.value = v ∧
      1000 ∣ t.value ∧ 100 ∣ h.value ∧ 10 ∣ te.value ∧ 1 ∣ o.value := by
  obtain ⟨_, _, rfl⟩ := fromInt_ok_inv hr
  have hveq : ((v : Int)).toNat = v := by omega
  rw [hveq]
  have h1 : v / 1000 * 1000 ≤ 3999 := by omega
  have h2 : v % 1000 / 100 * 100 ≤ 3999 := by omega
  have h3 : v % 1000 % 100 / 10 * 10 ≤ 3999 := by omega
  have h4 : v % 1000 % 100 % 10 / 1 * 1 ≤ 3999 := by omega
  refine ⟨⟨encodeLoop 1 [] (v / 1000 * 1000), v / 1000 * 1000⟩,
    ⟨encodeLoop 1 [] (v % 1000 / 100 * 100), v % 1000 / 100 * 100⟩,
    ⟨encodeLoop 1 [] (v % 1000 % 100 / 10 * 10), v % 1000 % 100 / 10 * 10⟩,
    ⟨encodeLoop 1 [] (v % 1000 % 100 % 10 / 1 * 1), v % 1000 % 100 % 10 / 1 * 1⟩,
    ?_, ?_, ?_, ?_, ?_, ?_⟩
  · unfold by_place_value PLACE_VALUES
    show placeLoop [1000, 100, 10, 1] v = _
    rw [placeLoop_cons_some _ _ _ _ (fromInt_eq _ h1),
        placeLoop_cons_some _ _ _ _ (fromInt_eq _ h2),
        placeLoop_cons_some _ _ _ _ (fromInt_eq _ h3),
        placeLoop_cons_some _ _ _ _ (fromInt_eq _ h4),
        placeLoop]
    rfl
  · show v / 1000 * 1000 + v % 1000 / 100 * 100 + v % 1000 % 100 / 10 * 10 +
      v % 1000 % 100 % 10 / 1 * 1 = v
    omega
  · exact dvd_mul_left 1000 (v / 1000)
  · exact dvd_mul_left 100 (v % 1000 / 100)
  · exact dvd_mul_left 10 (v % 1000 % 100 / 10)
  · exact dvd_mul_left 1 (v % 1000 % 100 % 10 / 1)

/-- Witness for C9 at `v = 1234`. -/
theorem claim9_witness :
    ∃ t h te o, by_place_value ⟨['M', 'C', 'C', 'X', 'X', 'X', 'I', 'V'], 1234⟩ = .ok (some [t, h, te, o]) ∧
      t.value + h.value + te.value + o.value = 1234 ∧
      1000 ∣ t.value ∧ 100 ∣ h.value ∧ 10 ∣ te.value ∧ 1 ∣ o.value :=
  claim9_place_value 1234 (by omega) ⟨['M', 'C', 'C', 'X', 'X', 'X', 'I', 'V'], 1234⟩ rfl

/-- C10: floor division and modulo by a zero operand (`RomanNumeral(0)`, `0`
or `0.0`, which all convert to the integer 0) raise `ZeroDivisionError` —
an error outside the spec's taxonomy — in both operand orders; nothing in
the code guards the division. -/
theorem claim10_zero_division (a : RomanNumeral) (x : Int) (r0 : RomanNumeral)
    (h0 : fromInt 0 = .ok (some r0)) :
    floordiv a 0 = .error .zeroDivisionError ∧
    mod_rn a 0 = .error .zeroDivisionError ∧
    rfloordiv r0 x = .error .zeroDivisionError ∧
    rmod r0 x = .error .zeroDivisionError ∧
    floordiv a (r0.value : Int) = .error .zeroDivisionError ∧
    mod_rn a (r0.value : Int) = .error .zeroDivisionError := by
  obtain ⟨_, _, rfl⟩ := fromInt_ok_inv h0
  have hv : (RomanNumeral.mk (encodeLoop 1 [] (Int.toNat 0)) (Int.toNat 0)).value = 0 := rfl
  refine ⟨rfl, rfl, ?_, ?_, rfl, rfl⟩
  · unfold rfloordiv
    rw [hv]
    simp
  · unfold rmod
    rw [hv]
    simp

/-- Witness for C10 with dividend `RomanNumeral(1)` and operand 5. -/
theorem claim10_witness :
    floordiv ⟨['I'], 1⟩ 0 = .error .zeroDivisionError ∧
    mod_rn ⟨['I'], 1⟩ 0 = .error .zeroDivisionError ∧
    rfloordiv ⟨[], 0⟩ 5 = .error .zeroDivisionError ∧
    rmod ⟨[], 0⟩ 5 = .error .zeroDivisionError ∧
    floordiv ⟨['I'], 1⟩ ((⟨[], 0⟩ : RomanNumeral).value : Int) = .error .zeroDivisionError ∧
    mod_rn ⟨['I'], 1⟩ ((⟨[], 0⟩ : RomanNumeral).value : Int) = .error .zeroDivisionError :=
  claim10_zero_division ⟨['I'], 1⟩ 5 ⟨[], 0⟩ rfl


end RomanNumerals
